import Mathlib

/-!
Verification of the time-tracking core: a shallow embedding of the event
log, interval derivation, timer service, versioned entity store and
project-management service of the repository, followed by theorems about
the specified properties.

Timestamps (`chrono::DateTime<Utc>`) are modelled as integers (whole
seconds since an epoch); `(end - start).num_seconds()` is then exactly
integer subtraction.  Store-assigned event ids (`i64`) are modelled as
integers.  `HashMap` iteration order, which is arbitrary in the source,
is modelled as first-insertion order; no theorem below depends on the
relative order of elements that the source leaves unordered (ties are
always broken by an explicit sort key or avoided in the statements).
-/

/-- Mirrors `TimeEntryEventType` (`Start | Stop | Annotate`) from
`domain/entities/time_entry.rs`. -/
inductive TimeEntryEventType
  | start
  | stop
  | annotate
deriving DecidableEq, Repr

/-- Mirrors `TimeEntryEvent` from `domain/entities/time_entry.rs`.  The
field `at` of the source is named `atTime` here because `at` is reserved
in Lean. -/
structure TimeEntryEvent where
  id : Option Int
  taskId : Int
  eventType : TimeEntryEventType
  atTime : Int
  startEventId : Option Int
  payload : Option String
deriving DecidableEq, Repr

/-- Mirrors `TimeEntryEvent::start_at` (and `start`, with `at = now`). -/
def TimeEntryEvent.startAt (taskId : Int) (t : Int) : TimeEntryEvent :=
  ⟨none, taskId, .start, t, none, none⟩

/-- Mirrors `TimeEntryEvent::stop_at` (and `stop`, with `at = now`). -/
def TimeEntryEvent.stopAt (taskId : Int) (startEventId : Int) (t : Int) : TimeEntryEvent :=
  ⟨none, taskId, .stop, t, some startEventId, none⟩

/-- Mirrors `TimeEntryEvent::annotate` (its `at` is the creation time). -/
def TimeEntryEvent.annotateAt (taskId : Int) (startEventId : Int) (note : String)
    (t : Int) : TimeEntryEvent :=
  ⟨none, taskId, .annotate, t, some startEventId, some note⟩

/-- Mirrors `TimeEntryEvent::with_id`. -/
def TimeEntryEvent.withId (e : TimeEntryEvent) (i : Int) : TimeEntryEvent :=
  { e with id := some i }

/-- Mirrors `TimeEntryEvent::is_start`. -/
def TimeEntryEvent.isStart (e : TimeEntryEvent) : Bool :=
  e.eventType == .start

/-- Mirrors `TimeEntryEvent::is_stop`. -/
def TimeEntryEvent.isStop (e : TimeEntryEvent) : Bool :=
  e.eventType == .stop

/-- Mirrors the derived interval `TimeEntry` from
`domain/entities/time_entry.rs`. -/
structure TimeEntry where
  taskId : Int
  startEventId : Int
  startTime : Int
  endTime : Option Int
  durationInSeconds : Option Int
deriving DecidableEq, Repr

/-- Mirrors `TimeEntry::new`: `duration_in_seconds` is computed as
`end_time - start_time` when an end time is present (no clamping, no
error on a negative difference). -/
def TimeEntry.new (taskId startEventId startTime : Int) (endTime : Option Int) : TimeEntry :=
  { taskId, startEventId, startTime, endTime,
    durationInSeconds := endTime.map (fun e => e - startTime) }

/-- Mirrors `TimeEntry::is_running` (`end_time.is_none()`). -/
def TimeEntry.isRunning (e : TimeEntry) : Bool :=
  e.endTime.isNone

/-- Mirrors `TimeEntry::is_completed` (`end_time.is_some()`). -/
def TimeEntry.isCompleted (e : TimeEntry) : Bool :=
  e.endTime.isSome

/-- State of `InMemoryTimeEntryRepository`
(`domain/repositories/time_entry_repository.rs`): the append-only event
vector and the id counter (which starts at 1). -/
structure RepoState where
  events : List TimeEntryEvent
  nextId : Int
deriving Repr

/-- Mirrors `InMemoryTimeEntryRepository::new()`. -/
def RepoState.initial : RepoState := ⟨[], 1⟩

/-- Mirrors `save_event`: assign the next id (`generate_id`), push the
event, return the saved event. -/
def saveEvent (s : RepoState) (e : TimeEntryEvent) : TimeEntryEvent × RepoState :=
  let saved := e.withId s.nextId
  (saved, ⟨s.events ++ [saved], s.nextId + 1⟩)

/-- A stable insertion sort, ascending in `key`; an element is inserted
before the first element whose key is not smaller, so elements with
equal keys keep their original relative order.  This is the unique
output of any stable sort by `key`, hence a faithful model of Rust's
(stable) `sort_by` / `sort_by_key`. -/
def insertOn {α : Type} (key : α → Int) (a : α) : List α → List α
  | [] => [a]
  | b :: l => if key a ≤ key b then a :: b :: l else b :: insertOn key a l

/-- Full stable insertion sort by `key` (see `insertOn`). -/
def sortOn {α : Type} (key : α → Int) : List α → List α
  | [] => []
  | a :: l => insertOn key a (sortOn key l)

/-- Interval for one Start event: the closing Stop is
`events.iter().find(|e| e.is_stop() && e.start_event_id() == Some(start_id))`,
exactly as in `build_time_entries`. -/
def entryForStart (evs : List TimeEntryEvent) (startEv : TimeEntryEvent) (sid : Int) : TimeEntry :=
  let stopEv := evs.find? (fun e => e.isStop && e.startEventId == some sid)
  TimeEntry.new startEv.taskId sid startEv.atTime (stopEv.map (·.atTime))

/-- The intervals of `build_time_entries` before the final sort: one per
stored Start event that has an id.  The source collects the Start events
into a `HashMap` keyed by id and iterates it in arbitrary order; we keep
log order (ids are unique in every reachable store, so the map holds the
same events). -/
def rawEntries (evs : List TimeEntryEvent) : List TimeEntry :=
  evs.filterMap (fun e =>
    match e.id with
    | some sid => if e.isStart then some (entryForStart evs e sid) else none
    | none => none)

/-- Mirrors `build_time_entries`: derive one interval per Start event,
then sort newest `start_time` first (`sort_by(|a, b| b.start_time().cmp(&a.start_time()))`,
a stable descending sort, i.e. ascending in the negated key). -/
def buildTimeEntries (s : RepoState) : List TimeEntry :=
  sortOn (fun e => -e.startTime) (rawEntries s.events)

/-- Mirrors `find_running_entries`. -/
def findRunningEntries (s : RepoState) : List TimeEntry :=
  (buildTimeEntries s).filter (·.isRunning)

/-- Mirrors `find_running_entry_by_task`. -/
def findRunningEntryByTask (s : RepoState) (taskId : Int) : Option TimeEntry :=
  (buildTimeEntries s).find? (fun e => e.taskId == taskId && e.isRunning)

/-- Mirrors `find_entries_by_task`. -/
def findEntriesByTask (s : RepoState) (taskId : Int) : List TimeEntry :=
  (buildTimeEntries s).filter (fun e => e.taskId == taskId)

/-- Mirrors `find_entries_by_task_and_period`
(`e.start_time() >= start && e.start_time() <= end`). -/
def findEntriesByTaskAndPeriod (s : RepoState) (taskId startT endT : Int) : List TimeEntry :=
  (buildTimeEntries s).filter (fun e =>
    e.taskId == taskId && decide (startT ≤ e.startTime) && decide (e.startTime ≤ endT))

/-- Mirrors `find_entries_by_period`
(`e.start_time() >= start && e.start_time() <= end`). -/
def findEntriesByPeriod (s : RepoState) (startT endT : Int) : List TimeEntry :=
  (buildTimeEntries s).filter (fun e =>
    decide (startT ≤ e.startTime) && decide (e.startTime ≤ endT))

/-- Mirrors `find_overlapping_entries`
(`e.start_time() < end && e.end_time().map_or(true, |et| et > start)`). -/
def findOverlappingEntries (s : RepoState) (taskId startT endT : Int) : List TimeEntry :=
  (buildTimeEntries s).filter (fun e =>
    e.taskId == taskId && decide (e.startTime < endT) &&
      (match e.endTime with
       | none => true
       | some et => decide (startT < et)))

/-- Mirrors `TimeTrackingServiceImpl::start_timer`.  The wall clock
(`Utc::now()`) is passed in as `now`. -/
def startTimer (s : RepoState) (taskId now : Int) : TimeEntryEvent × RepoState :=
  let running := findRunningEntries s
  let s1 := running.foldl (fun st entry =>
    if entry.taskId ≠ taskId then
      (saveEvent st (TimeEntryEvent.stopAt entry.taskId entry.startEventId now)).2
    else st) s
  let s2 := match findRunningEntryByTask s1 taskId with
    | some entry => (saveEvent s1 (TimeEntryEvent.stopAt taskId entry.startEventId now)).2
    | none => s1
  saveEvent s2 (TimeEntryEvent.startAt taskId now)

/-- Mirrors `TimeTrackingServiceImpl::stop_timer`. -/
def stopTimer (s : RepoState) (taskId now : Int) : Option TimeEntryEvent × RepoState :=
  match findRunningEntryByTask s taskId with
  | some entry =>
    let r := saveEvent s (TimeEntryEvent.stopAt taskId entry.startEventId now)
    (some r.1, r.2)
  | none => (none, s)

/-- Mirrors `TimeTrackingServiceImpl::get_running_task`
(`running_entries.first().map(|entry| entry.task_id())`). -/
def getRunningTask (s : RepoState) : Option Int :=
  (findRunningEntries s).head?.map (·.taskId)

/-- Mirrors `TimeTrackingServiceImpl::add_manual_entry`.  `now` is the
wall clock used for the Annotate event's `at` (`Utc::now()` in the
source); the Start and Stop use the given `startTime`/`endTime`.  The
`id().unwrap()` on the saved start is modelled by `Option.getD 0`; the
id is always present after `saveEvent`. -/
def addManualEntry (s : RepoState) (taskId startTime endTime : Int) (note : Option String)
    (now : Int) : Except String ((TimeEntryEvent × TimeEntryEvent) × RepoState) :=
  if startTime ≥ endTime then .error "Start time must be before end time"
  else
    let overlapping := findOverlappingEntries s taskId startTime endTime
    if overlapping.isEmpty then
      let r1 := saveEvent s (TimeEntryEvent.startAt taskId startTime)
      let r2 := saveEvent r1.2 (TimeEntryEvent.stopAt taskId (r1.1.id.getD 0) endTime)
      match note with
      | some noteText =>
        let r3 := saveEvent r2.2 (TimeEntryEvent.annotateAt taskId (r1.1.id.getD 0) noteText now)
        .ok ((r1.1, r2.1), r3.2)
      | none => .ok ((r1.1, r2.1), r2.2)
    else .error "Time entry overlaps with existing entries"

/-- Mirrors `TimeTrackingServiceImpl::stop_all_timers`. -/
def stopAllTimers (s : RepoState) (now : Int) : List TimeEntryEvent × RepoState :=
  let running := findRunningEntries s
  running.foldl (fun acc entry =>
    let r := saveEvent acc.2 (TimeEntryEvent.stopAt entry.taskId entry.startEventId now)
    (acc.1 ++ [r.1], r.2)) ([], s)

/-- One sequential call to the timer service, carrying the wall-clock
value(s) observed during the call. -/
inductive TimerOp
  | startOp (taskId now : Int)
  | stopOp (taskId now : Int)
  | manualOp (taskId startTime endTime : Int) (note : Option String) (now : Int)
  | stopAllOp (now : Int)

/-- Execute one service call; a failed `add_manual_entry` leaves the
store untouched (the service returns the error before any write). -/
def execOp (s : RepoState) : TimerOp → RepoState
  | .startOp t now => (startTimer s t now).2
  | .stopOp t now => (stopTimer s t now).2
  | .manualOp t st en note now =>
    match addManualEntry s t st en note now with
    | .ok r => r.2
    | .error _ => s
  | .stopAllOp now => (stopAllTimers s now).2

/-- Run a sequence of service calls against an empty store. -/
def runOps (ops : List TimerOp) : RepoState :=
  ops.foldl execOp RepoState.initial

/-- Replay a sequence of raw `save_event` calls against an empty store
(the repository-level interface, with no service validation). -/
def replaySaves (saves : List TimeEntryEvent) : RepoState :=
  saves.foldl (fun st e => (saveEvent st e).2) RepoState.initial

/-- Ids of the stored Start events, in log order. -/
def startIds (evs : List TimeEntryEvent) : List Int :=
  evs.filterMap (fun e => if e.isStart then e.id else none)

/-- Whether some stored Stop event closes the Start event with id `sid`. -/
def hasStopFor (evs : List TimeEntryEvent) (sid : Int) : Bool :=
  evs.any (fun e => e.isStop && e.startEventId == some sid)

/-- Ids of the Start events with no closing Stop: the running intervals. -/
def runningIds (evs : List TimeEntryEvent) : List Int :=
  (startIds evs).filter (fun sid => !hasStopFor evs sid)

/-- Mirrors the `Status` value object (`Active | Archived`). -/
inductive Status
  | active
  | archived
deriving DecidableEq, Repr

/-- Whitespace as recognised by Rust's `str::trim` (the Unicode
`White_Space` property). -/
def rustIsWhitespace (c : Char) : Bool :=
  c.toNat ∈ [9, 10, 11, 12, 13, 32, 0x85, 0xA0, 0x1680,
    0x2000, 0x2001, 0x2002, 0x2003, 0x2004, 0x2005, 0x2006, 0x2007,
    0x2008, 0x2009, 0x200A, 0x2028, 0x2029, 0x202F, 0x205F, 0x3000]

/-- Mirrors `str::trim`: drop leading and trailing whitespace.  Names
are modelled as lists of Unicode scalar values. -/
def trimChars (name : List Char) : List Char :=
  ((name.dropWhile rustIsWhitespace).reverse.dropWhile rustIsWhitespace).reverse

/-- UTF-8 width of one scalar value, so that `byteLen` matches Rust's
`str::len` (a byte count). -/
def charUtf8Width (c : Char) : Nat :=
  if c.toNat < 0x80 then 1
  else if c.toNat < 0x800 then 2
  else if c.toNat < 0x10000 then 3
  else 4

/-- Mirrors Rust's `str::len`: the UTF-8 byte length of the name. -/
def byteLen (name : List Char) : Nat :=
  (name.map charUtf8Width).sum

/-- Mirrors the `Project` entity (one stored version). -/
structure Project where
  id : Int
  name : List Char
  status : Status
  effectiveAt : Int
deriving DecidableEq, Repr

/-- Mirrors `Project::new` / `new_with_time`: reject a name empty after
trimming, then reject `name.len() > 255` (the byte length of the
UNTRIMMED name); store the trimmed name, status Active. -/
def Project.new (id : Int) (name : List Char) (now : Int) : Except String Project :=
  if (trimChars name).isEmpty then .error "Project name cannot be empty"
  else if byteLen name > 255 then .error "Project name cannot exceed 255 characters"
  else .ok ⟨id, trimChars name, .active, now⟩

/-- Mirrors `Project::change_name` (same validation as `new`). -/
def Project.changeName (p : Project) (newName : List Char) (now : Int) : Except String Project :=
  if (trimChars newName).isEmpty then .error "Project name cannot be empty"
  else if byteLen newName > 255 then .error "Project name cannot exceed 255 characters"
  else .ok ⟨p.id, trimChars newName, p.status, now⟩

/-- Mirrors `Project::archive`: unconditionally produce an Archived
version stamped `now` (the source checks no precondition). -/
def Project.archive (p : Project) (now : Int) : Project :=
  ⟨p.id, p.name, .archived, now⟩

/-- Mirrors `Project::restore`: requires the current status to be
Archived, else an error. -/
def Project.restore (p : Project) (now : Int) : Except String Project :=
  if p.status ≠ .archived then .error "Project is not archived"
  else .ok ⟨p.id, p.name, .active, now⟩

/-- Mirrors the `Task` entity (one stored version); named `WorkTask`
because `Task` is taken by the Lean core library. -/
structure WorkTask where
  id : Int
  projectId : Int
  name : List Char
  status : Status
  effectiveAt : Int
deriving DecidableEq, Repr

/-- Mirrors `Task::new` / `new_with_time` (same name validation as
`Project::new`). -/
def WorkTask.new (id projectId : Int) (name : List Char) (now : Int) : Except String WorkTask :=
  if (trimChars name).isEmpty then .error "Task name cannot be empty"
  else if byteLen name > 255 then .error "Task name cannot exceed 255 characters"
  else .ok ⟨id, projectId, trimChars name, .active, now⟩

/-- Mirrors `Task::archive`: unconditional, like `Project::archive`. -/
def WorkTask.archive (t : WorkTask) (now : Int) : WorkTask :=
  ⟨t.id, t.projectId, t.name, .archived, now⟩

/-- Mirrors `Task::restore`. -/
def WorkTask.restore (t : WorkTask) (now : Int) : Except String WorkTask :=
  if t.status ≠ .archived then .error "Task is not archived"
  else .ok ⟨t.id, t.projectId, t.name, .active, now⟩

/-- One step of Rust's `Iterator::max_by_key` fold: keep the element
with the larger key, preferring the later one on a tie. -/
def maxF {α : Type} (key : α → Int) (m v : α) : α :=
  if key m ≤ key v then v else m

/-- Rust's `Iterator::max_by_key`: the maximum by `key`, the LAST one
when several elements are equally maximal (per its documentation; the
fold replaces the accumulator whenever the new key is not smaller). -/
def maxByKeyLast {α : Type} (key : α → Int) : List α → Option α
  | [] => none
  | a :: l => some (l.foldl (maxF key) a)

/-- The version chain stored for one id: the in-memory repositories keep
a `HashMap<Id, Vec<Version>>` to which `save` pushes; we model the whole
store as the flat list of saved versions in save order, so the vector
for `id` is the sublist with that id. -/
def projVersions (store : List Project) (id : Int) : List Project :=
  store.filter (fun p => p.id == id)

/-- Mirrors `InMemoryProjectRepository::save` (push a version). -/
def saveProject (store : List Project) (p : Project) : List Project :=
  store ++ [p]

/-- Mirrors `InMemoryProjectRepository::find_by_id`:
`versions.iter().max_by_key(|p| p.effective_at())`. -/
def findProjectById (store : List Project) (id : Int) : Option Project :=
  maxByKeyLast (fun p => p.effectiveAt) (projVersions store id)

/-- Mirrors `InMemoryProjectRepository::find_history`: the chain sorted
by `effective_at` (`sort_by_key`, a stable sort). -/
def findProjectHistory (store : List Project) (id : Int) : List Project :=
  sortOn (fun p => p.effectiveAt) (projVersions store id)

/-- Mirrors `InMemoryProjectRepository::find_at_time`: versions with
`effective_at <= at`, then `max_by_key(effective_at)`. -/
def findProjectAtTime (store : List Project) (id : Int) (at' : Int) : Option Project :=
  maxByKeyLast (fun p => p.effectiveAt)
    ((projVersions store id).filter (fun p => decide (p.effectiveAt ≤ at')))

/-- Task version chain for one id (see `projVersions`). -/
def taskVersions (store : List WorkTask) (id : Int) : List WorkTask :=
  store.filter (fun t => t.id == id)

/-- Mirrors `InMemoryTaskRepository::save`. -/
def saveTask (store : List WorkTask) (t : WorkTask) : List WorkTask :=
  store ++ [t]

/-- Mirrors `InMemoryTaskRepository::find_by_id`. -/
def findTaskById (store : List WorkTask) (id : Int) : Option WorkTask :=
  maxByKeyLast (fun t => t.effectiveAt) (taskVersions store id)

/-- First-occurrence deduplication, used to model iteration over the
keys of the versions `HashMap` (one latest version per task id). -/
def uniqueKeys : List Int → List Int
  | [] => []
  | x :: xs => x :: uniqueKeys (xs.filter (fun y => y ≠ x))
termination_by l => l.length
decreasing_by
  simp only [List.length_cons]
  exact Nat.lt_succ_of_le (List.length_filter_le _ _)

/-- The distinct task ids present in the store, in first-save order. -/
def taskIdsOf (store : List WorkTask) : List Int :=
  uniqueKeys (store.map (fun t => t.id))

/-- Mirrors `InMemoryTaskRepository::find_active_by_project_id`: for
every known task id take the current (latest) version and keep it when
it belongs to the project and is Active. -/
def findActiveByProjectId (store : List WorkTask) (projectId : Int) : List WorkTask :=
  (taskIdsOf store).filterMap (fun tid =>
    match findTaskById store tid with
    | some t =>
      if t.projectId == projectId && t.status == Status.active then some t else none
    | none => none)

/-- Mirrors `ProjectManagementServiceImpl::archive_project_with_tasks`:
fail on unknown id, fail on an already-archived project, otherwise
archive every currently Active task of the project and then the project
itself (all new versions stamped `now`). -/
def archiveProjectWithTasks (pstore : List Project) (tstore : List WorkTask) (projectId now : Int) :
    Except String (List Project × List WorkTask) :=
  match findProjectById pstore projectId with
  | none => .error "Project not found"
  | some p =>
    if p.status == Status.archived then .error "Project is already archived"
    else
      let activeTasks := findActiveByProjectId tstore projectId
      let tstore' := activeTasks.foldl (fun st t => saveTask st (WorkTask.archive t now)) tstore
      let pstore' := saveProject pstore (Project.archive p now)
      .ok (pstore', tstore')

/-- The Stop event with the smallest id among those whose
`start_event_id` is `sid` (the deterministic tie-break the spec
mandates; the fold keeps the first minimal element).  Used to compare
the source's derivation against the specified rule. -/
def minIdStop (evs : List TimeEntryEvent) (sid : Int) : Option TimeEntryEvent :=
  match evs.filter (fun e => e.isStop && e.startEventId == some sid) with
  | [] => none
  | m :: rest => some (rest.foldl (fun acc e =>
      if e.id.getD 0 < acc.id.getD 0 then e else acc) m)

/-! Lemmas about the stable sort and the last-maximum fold. -/

theorem insertOn_perm {α : Type} (key : α → Int) (a : α) (l : List α) :
    List.Perm (insertOn key a l) (a :: l) := by
  induction l with
  | nil => exact List.Perm.refl _
  | cons b l ih =>
    unfold insertOn
    split
    · exact List.Perm.refl _
    · exact (ih.cons b).trans (List.Perm.swap a b l)

theorem sortOn_perm {α : Type} (key : α → Int) (l : List α) :
    List.Perm (sortOn key l) l := by
  induction l with
  | nil => exact List.Perm.refl _
  | cons a l ih => exact (insertOn_perm key a (sortOn key l)).trans (ih.cons a)

theorem mem_sortOn {α : Type} {key : α → Int} {l : List α} {x : α} :
    x ∈ sortOn key l ↔ x ∈ l :=
  (sortOn_perm key l).mem_iff

theorem insertOn_ne_nil {α : Type} (key : α → Int) (a : α) (l : List α) :
    insertOn key a l ≠ [] := by
  intro h
  have hl := (insertOn_perm key a l).length_eq
  rw [h] at hl
  simp at hl

theorem insertOn_pairwise {α : Type} {key : α → Int} {a : α} {l : List α}
    (h : l.Pairwise (fun x y => key x ≤ key y)) :
    (insertOn key a l).Pairwise (fun x y => key x ≤ key y) := by
  induction l with
  | nil => simp [insertOn]
  | cons b l ih =>
    rw [List.pairwise_cons] at h
    unfold insertOn
    split
    · rename_i hab
      refine List.pairwise_cons.2 ⟨?_, List.pairwise_cons.2 ⟨h.1, h.2⟩⟩
      intro x hx
      rcases List.mem_cons.1 hx with rfl | hx
      · exact hab
      · exact le_trans hab (h.1 x hx)
    · rename_i hab
      refine List.pairwise_cons.2 ⟨?_, ih h.2⟩
      intro x hx
      rcases List.mem_cons.1 ((insertOn_perm key a l).mem_iff.1 hx) with rfl | hx
      · omega
      · exact h.1 x hx

theorem sortOn_pairwise {α : Type} (key : α → Int) (l : List α) :
    (sortOn key l).Pairwise (fun x y => key x ≤ key y) := by
  induction l with
  | nil => simp [sortOn]
  | cons a l ih => exact insertOn_pairwise ih

theorem sortOn_eq_nil_iff {α : Type} {key : α → Int} {l : List α} :
    sortOn key l = [] ↔ l = [] := by
  constructor
  · intro h
    have hl := (sortOn_perm key l).length_eq
    rw [h] at hl
    cases l with
    | nil => rfl
    | cons x xs => simp at hl
  · intro h; subst h; rfl

theorem maxF_assoc {α : Type} (key : α → Int) (a b c : α) :
    maxF key (maxF key a b) c = maxF key a (maxF key b c) := by
  unfold maxF
  split_ifs <;> first | rfl | omega

theorem foldl_maxF {α : Type} (key : α → Int) :
    ∀ (l : List α) (a b : α),
      l.foldl (maxF key) (maxF key a b) = maxF key a (l.foldl (maxF key) b) := by
  intro l
  induction l with
  | nil => intro a b; rfl
  | cons c l ih =>
    intro a b
    simp only [List.foldl_cons]
    rw [maxF_assoc, ih]

theorem foldl_maxByKey {α : Type} (key : α → Int) {l : List α} {m : α} (a : α)
    (h : maxByKeyLast key l = some m) :
    l.foldl (maxF key) a = if key m < key a then a else m := by
  cases l with
  | nil => simp [maxByKeyLast] at h
  | cons b l =>
    simp only [maxByKeyLast, Option.some.injEq] at h
    have hstep : (b :: l).foldl (maxF key) a = maxF key a (l.foldl (maxF key) b) := by
      rw [List.foldl_cons]
      exact foldl_maxF key l a b
    rw [hstep, h]
    unfold maxF
    split_ifs <;> first | rfl | omega

theorem getLast?_cons_of_ne_nil {α : Type} {b : α} {L : List α} (h : L ≠ []) :
    (b :: L).getLast? = L.getLast? := by
  cases L with
  | nil => exact absurd rfl h
  | cons c l => exact List.getLast?_cons_cons

theorem getLast?_insertOn {α : Type} {key : α → Int} {a m : α} :
    ∀ {l : List α}, l.Pairwise (fun x y => key x ≤ key y) → l.getLast? = some m →
      (insertOn key a l).getLast? = if key m < key a then some a else some m := by
  intro l
  induction l with
  | nil => intro _ hm; simp at hm
  | cons b l ih =>
    intro h hm
    rw [List.pairwise_cons] at h
    cases l with
    | nil =>
      rw [List.getLast?_singleton] at hm
      cases hm
      simp only [insertOn]
      split_ifs with h1 h2 h2
      · exfalso; omega
      · simp
      · simp [insertOn]
      · exfalso; omega
    | cons c l' =>
      rw [List.getLast?_cons_cons] at hm
      have hmem : m ∈ c :: l' := by
        have hne : (c :: l') ≠ [] := by simp
        rw [List.getLast?_eq_getLast _ hne, Option.some.injEq] at hm
        rw [← hm]
        exact List.getLast_mem hne
      unfold insertOn
      split
      · rename_i hab
        have hbm : key b ≤ key m := h.1 m hmem
        rw [List.getLast?_cons_cons, List.getLast?_cons_cons, hm, if_neg (by omega)]
      · rename_i hab
        rw [getLast?_cons_of_ne_nil (insertOn_ne_nil key a (c :: l'))]
        exact ih h.2 hm

theorem getLast?_sortOn {α : Type} (key : α → Int) (l : List α) :
    (sortOn key l).getLast? = maxByKeyLast key l := by
  induction l with
  | nil => rfl
  | cons a l ih =>
    show (insertOn key a (sortOn key l)).getLast? = _
    cases hl : (sortOn key l).getLast? with
    | none =>
      have hnil : l = [] := sortOn_eq_nil_iff.1 (List.getLast?_eq_none_iff.1 hl)
      subst hnil
      rfl
    | some m =>
      rw [getLast?_insertOn (sortOn_pairwise key l) hl]
      rw [hl] at ih
      simp only [maxByKeyLast]
      rw [foldl_maxByKey key a ih.symm]
      split_ifs <;> rfl

/-! Lemmas about running intervals in the event log. -/

theorem startIds_append (l₁ l₂ : List TimeEntryEvent) :
    startIds (l₁ ++ l₂) = startIds l₁ ++ startIds l₂ :=
  List.filterMap_append l₁ l₂ _

theorem hasStopFor_append (l₁ l₂ : List TimeEntryEvent) (sid : Int) :
    hasStopFor (l₁ ++ l₂) sid = (hasStopFor l₁ sid || hasStopFor l₂ sid) :=
  List.any_append

theorem runningIds_append_stop (evs : List TimeEntryEvent) (t r now i : Int) :
    runningIds (evs ++ [(TimeEntryEvent.stopAt t r now).withId i]) =
      (runningIds evs).filter (fun sid => sid ≠ r) := by
  unfold runningIds
  rw [startIds_append]
  have hs : startIds [(TimeEntryEvent.stopAt t r now).withId i] = [] := by
    simp [startIds, TimeEntryEvent.stopAt, TimeEntryEvent.withId, TimeEntryEvent.isStart]
  rw [hs, List.append_nil, List.filter_filter]
  refine List.filter_congr ?_
  intro sid _
  rw [hasStopFor_append]
  have h1 : hasStopFor [(TimeEntryEvent.stopAt t r now).withId i] sid = (r == sid) := by
    simp [hasStopFor, TimeEntryEvent.stopAt, TimeEntryEvent.withId, TimeEntryEvent.isStop]
  rw [h1]
  by_cases hr : sid = r
  · subst hr
    simp
  · have : (r == sid) = false := by
      simp only [beq_eq_false_iff_ne, ne_eq]
      omega
    simp [this, hr]

theorem runningIds_append_start (evs : List TimeEntryEvent) (t now i : Int)
    (h : hasStopFor evs i = false) :
    runningIds (evs ++ [(TimeEntryEvent.startAt t now).withId i]) = runningIds evs ++ [i] := by
  unfold runningIds
  rw [startIds_append]
  have hs : startIds [(TimeEntryEvent.startAt t now).withId i] = [i] := by
    simp [startIds, TimeEntryEvent.startAt, TimeEntryEvent.withId, TimeEntryEvent.isStart]
  have hnostop : ∀ sid, hasStopFor (evs ++ [(TimeEntryEvent.startAt t now).withId i]) sid =
      hasStopFor evs sid := by
    intro sid
    rw [hasStopFor_append]
    have : hasStopFor [(TimeEntryEvent.startAt t now).withId i] sid = false := by
      simp [hasStopFor, TimeEntryEvent.startAt, TimeEntryEvent.withId, TimeEntryEvent.isStop]
    simp [this]
  rw [hs, List.filter_append]
  congr 1
  · exact List.filter_congr (fun sid _ => by rw [hnostop])
  · simp [hnostop, h]

theorem runningIds_append_annotate (evs : List TimeEntryEvent)
    (t r : Int) (note : String) (now i : Int) :
    runningIds (evs ++ [(TimeEntryEvent.annotateAt t r note now).withId i]) =
      runningIds evs := by
  unfold runningIds
  rw [startIds_append]
  have hs : startIds [(TimeEntryEvent.annotateAt t r note now).withId i] = [] := by
    simp [startIds, TimeEntryEvent.annotateAt, TimeEntryEvent.withId, TimeEntryEvent.isStart]
  have hnostop : ∀ sid, hasStopFor (evs ++ [(TimeEntryEvent.annotateAt t r note now).withId i]) sid =
      hasStopFor evs sid := by
    intro sid
    rw [hasStopFor_append]
    have : hasStopFor [(TimeEntryEvent.annotateAt t r note now).withId i] sid = false := by
      simp [hasStopFor, TimeEntryEvent.annotateAt, TimeEntryEvent.withId, TimeEntryEvent.isStop]
    simp [this]
  rw [hs, List.append_nil]
  exact List.filter_congr (fun sid _ => by rw [hnostop])

theorem map_filter_comm {α β : Type} (f : α → β) (p : β → Bool) (l : List α) :
    (l.filter (fun a => p (f a))).map f = (l.map f).filter p := by
  induction l with
  | nil => rfl
  | cons a l ih =>
    by_cases h : p (f a) = true
    · simp [List.filter_cons, h, ih]
    · simp only [Bool.not_eq_true] at h
      simp [List.filter_cons, h, ih]

theorem find?_isNone_iff_any {α : Type} (p : α → Bool) (l : List α) :
    l.find? p = none ↔ l.any p = false := by
  rw [List.find?_eq_none]
  constructor
  · intro h
    by_contra hc
    rw [Bool.not_eq_false, List.any_eq_true] at hc
    obtain ⟨x, hx, hpx⟩ := hc
    exact h x hx hpx
  · intro h x hx hpx
    have : l.any p = true := List.any_eq_true.2 ⟨x, hx, hpx⟩
    rw [h] at this
    cases this

theorem rawEntries_map_aux (full : List TimeEntryEvent) :
    ∀ (l : List TimeEntryEvent),
      ((l.filterMap (fun e =>
        match e.id with
        | some sid => if e.isStart then some (entryForStart full e sid) else none
        | none => none)).map (fun e => e.startEventId)) = startIds l := by
  intro l
  induction l with
  | nil => rfl
  | cons e l ih =>
    cases hid : e.id with
    | none =>
      rw [List.filterMap_cons, hid]
      unfold startIds
      rw [List.filterMap_cons]
      cases hst : e.isStart <;> simp [hid, hst] <;> exact ih
    | some sid =>
      rw [List.filterMap_cons, hid]
      unfold startIds
      rw [List.filterMap_cons]
      cases hst : e.isStart
      · simp [hid, hst]
        exact ih
      · simp [hid, hst]
        refine ⟨rfl, ih⟩

theorem rawEntries_map_startEventId (evs : List TimeEntryEvent) :
    (rawEntries evs).map (fun e => e.startEventId) = startIds evs :=
  rawEntries_map_aux evs evs

theorem mem_rawEntries_isRunning {evs : List TimeEntryEvent} {e : TimeEntry}
    (h : e ∈ rawEntries evs) :
    e.isRunning = !hasStopFor evs e.startEventId := by
  unfold rawEntries at h
  rw [List.mem_filterMap] at h
  obtain ⟨ev, hmem, hsome⟩ := h
  cases hid : ev.id with
  | none => rw [hid] at hsome; cases hsome
  | some sid =>
    rw [hid] at hsome
    cases hst : ev.isStart
    · rw [hst] at hsome; simp at hsome
    · rw [hst] at hsome
      simp only [if_true, Option.some.injEq] at hsome
      subst hsome
      show (entryForStart evs ev sid).endTime.isNone = _
      unfold entryForStart TimeEntry.new hasStopFor
      cases hfind : evs.find? (fun e => e.isStop && e.startEventId == some sid) with
      | none =>
        have hany := (find?_isNone_iff_any _ evs).1 hfind
        simp [hfind, hany]
      | some x =>
        have hx : x ∈ evs := List.mem_of_find?_eq_some hfind
        have hpx := List.find?_some hfind
        have hany : evs.any (fun e => e.isStop && e.startEventId == some sid) = true :=
          List.any_eq_true.2 ⟨x, hx, hpx⟩
        simp [hfind, hany]

theorem mem_rawEntries_startEventId_mem {evs : List TimeEntryEvent} {e : TimeEntry}
    (h : e ∈ rawEntries evs) : e.startEventId ∈ startIds evs := by
  rw [← rawEntries_map_startEventId]
  exact List.mem_map_of_mem _ h

theorem runningIds_perm (s : RepoState) :
    List.Perm (runningIds s.events) ((findRunningEntries s).map (fun e => e.startEventId)) := by
  have h1 : (rawEntries s.events).filter (·.isRunning) =
      (rawEntries s.events).filter (fun e => !hasStopFor s.events e.startEventId) :=
    List.filter_congr (fun e he => mem_rawEntries_isRunning he)
  have h2 : ((rawEntries s.events).filter
      (fun e => !hasStopFor s.events e.startEventId)).map (fun e => e.startEventId) =
      ((rawEntries s.events).map (fun e => e.startEventId)).filter
        (fun sid => !hasStopFor s.events sid) :=
    map_filter_comm (fun e : TimeEntry => e.startEventId)
      (fun sid => !hasStopFor s.events sid) (rawEntries s.events)
  have h3 : runningIds s.events =
      ((rawEntries s.events).filter (·.isRunning)).map (fun e => e.startEventId) := by
    rw [h1, h2, rawEntries_map_startEventId]
    rfl
  rw [h3]
  refine List.Perm.map _ (List.Perm.filter _ ?_)
  exact (sortOn_perm _ _).symm

theorem findRunningEntries_length_eq (s : RepoState) :
    (findRunningEntries s).length = (runningIds s.events).length := by
  have := (runningIds_perm s).length_eq
  rw [this, List.length_map]

theorem findRunningEntries_eq_nil_of_runningIds (s : RepoState)
    (h : runningIds s.events = []) : findRunningEntries s = [] := by
  have hl := findRunningEntries_length_eq s
  rw [h] at hl
  simp at hl
  exact hl

theorem runningIds_eq_of_findRunningEntries_singleton (s : RepoState) {e : TimeEntry}
    (h : findRunningEntries s = [e]) : runningIds s.events = [e.startEventId] := by
  have hp := runningIds_perm s
  rw [h] at hp
  exact List.perm_singleton.1 hp

/-- Well-formedness of the store: every stored event carries an id, ids
are strictly increasing in log order and bounded by the id counter.
This holds for every store reachable through `save_event`. -/
structure EventsWF (s : RepoState) : Prop where
  idBound : ∀ e ∈ s.events, ∃ i, e.id = some i ∧ i < s.nextId
  idAsc : List.Pairwise (fun a b => ∀ ia ib, a.id = some ia → b.id = some ib → ia < ib) s.events

/-- Reference well-formedness: every `start_event_id` stored points
below the id counter.  This holds for stores driven only through the
timer service (whose Stop/Annotate events reference existing ids). -/
structure RefsWF (s : RepoState) : Prop where
  refBound : ∀ e ∈ s.events, ∀ r, e.startEventId = some r → r < s.nextId

theorem eventsWF_initial : EventsWF RepoState.initial := by
  constructor <;> simp [RepoState.initial]

theorem refsWF_initial : RefsWF RepoState.initial := by
  constructor; simp [RepoState.initial]

theorem saveEvent_events (s : RepoState) (e : TimeEntryEvent) :
    (saveEvent s e).2.events = s.events ++ [e.withId s.nextId] := rfl

theorem saveEvent_nextId (s : RepoState) (e : TimeEntryEvent) :
    (saveEvent s e).2.nextId = s.nextId + 1 := rfl

theorem saveEvent_fst (s : RepoState) (e : TimeEntryEvent) :
    (saveEvent s e).1 = e.withId s.nextId := rfl

theorem eventsWF_save (s : RepoState) (e : TimeEntryEvent) (h : EventsWF s) :
    EventsWF (saveEvent s e).2 := by
  constructor
  · intro x hx
    rw [saveEvent_events] at hx
    rw [saveEvent_nextId]
    rcases List.mem_append.1 hx with hx | hx
    · obtain ⟨i, hi, hlt⟩ := h.idBound x hx
      exact ⟨i, hi, by omega⟩
    · rw [List.mem_singleton] at hx
      subst hx
      exact ⟨s.nextId, rfl, by omega⟩
  · rw [saveEvent_events, List.pairwise_append]
    refine ⟨h.idAsc, List.pairwise_singleton _ _, ?_⟩
    intro a ha b hb ia ib hia hib
    rw [List.mem_singleton] at hb
    subst hb
    obtain ⟨i, hi, hlt⟩ := h.idBound a ha
    rw [hi] at hia
    cases hia
    have : ib = s.nextId := by
      have : (e.withId s.nextId).id = some s.nextId := rfl
      rw [this] at hib
      cases hib
      rfl
    omega

theorem refsWF_save (s : RepoState) (e : TimeEntryEvent) (h : RefsWF s)
    (he : ∀ r, e.startEventId = some r → r < s.nextId) :
    RefsWF (saveEvent s e).2 := by
  constructor
  intro x hx r hr
  rw [saveEvent_events] at hx
  rw [saveEvent_nextId]
  rcases List.mem_append.1 hx with hx | hx
  · have := h.refBound x hx r hr
    omega
  · rw [List.mem_singleton] at hx
    subst hx
    have : e.startEventId = some r := hr
    have := he r this
    omega

theorem hasStopFor_nextId_false (s : RepoState) (hw : RefsWF s) :
    hasStopFor s.events s.nextId = false := by
  by_contra hc
  rw [Bool.not_eq_false] at hc
  unfold hasStopFor at hc
  rw [List.any_eq_true] at hc
  obtain ⟨x, hx, hpx⟩ := hc
  rw [Bool.and_eq_true, beq_iff_eq] at hpx
  have := hw.refBound x hx s.nextId hpx.2
  omega

theorem mem_startIds_lt (s : RepoState) (hw : EventsWF s) {sid : Int}
    (h : sid ∈ startIds s.events) : sid < s.nextId := by
  unfold startIds at h
  rw [List.mem_filterMap] at h
  obtain ⟨ev, hmem, hev⟩ := h
  cases hst : ev.isStart
  · rw [hst] at hev; cases hev
  · rw [hst] at hev
    simp only [if_true] at hev
    obtain ⟨i, hi, hlt⟩ := hw.idBound ev hmem
    rw [hi] at hev
    cases hev
    exact hlt

theorem mem_runningIds_lt (s : RepoState) (hw : EventsWF s) {sid : Int}
    (h : sid ∈ runningIds s.events) : sid < s.nextId := by
  unfold runningIds at h
  exact mem_startIds_lt s hw (List.mem_of_mem_filter h)

theorem findRunningEntryByTask_eq_none (s : RepoState) (t : Int)
    (h : findRunningEntries s = []) : findRunningEntryByTask s t = none := by
  unfold findRunningEntryByTask
  rw [List.find?_eq_none]
  intro x hx hpx
  rw [Bool.and_eq_true] at hpx
  have hxr : x ∈ findRunningEntries s := by
    unfold findRunningEntries
    exact List.mem_filter.2 ⟨hx, hpx.2⟩
  rw [h] at hxr
  cases hxr

theorem findRunningEntryByTask_mem {s : RepoState} {t : Int} {e : TimeEntry}
    (h : findRunningEntryByTask s t = some e) :
    e ∈ findRunningEntries s ∧ e.taskId = t := by
  have hmem : e ∈ buildTimeEntries s := List.mem_of_find?_eq_some h
  have hp := List.find?_some h
  rw [Bool.and_eq_true, beq_iff_eq] at hp
  refine ⟨?_, hp.1⟩
  unfold findRunningEntries
  exact List.mem_filter.2 ⟨hmem, hp.2⟩

theorem findRunningEntryByTask_isSome {s : RepoState} {t : Int} {e : TimeEntry}
    (he : e ∈ findRunningEntries s) (ht : e.taskId = t) :
    ∃ x, findRunningEntryByTask s t = some x := by
  unfold findRunningEntries at he
  rw [List.mem_filter] at he
  have : (buildTimeEntries s).any (fun x => x.taskId == t && x.isRunning) = true :=
    List.any_eq_true.2 ⟨e, he.1, by rw [Bool.and_eq_true, beq_iff_eq]; exact ⟨ht, he.2⟩⟩
  unfold findRunningEntryByTask
  cases hf : (buildTimeEntries s).find? (fun x => x.taskId == t && x.isRunning) with
  | none =>
    rw [find?_isNone_iff_any] at hf
    rw [hf] at this
    cases this
  | some x => exact ⟨x, rfl⟩

/-- Combined invariant: well-formed ids and references, and at most one
running interval. -/
def RepoInv (s : RepoState) : Prop :=
  EventsWF s ∧ RefsWF s ∧ (runningIds s.events).length ≤ 1

theorem mem_findRunningEntries_sid_mem {s : RepoState} {e : TimeEntry}
    (he : e ∈ findRunningEntries s) : e.startEventId ∈ runningIds s.events :=
  (runningIds_perm s).mem_iff.2 (List.mem_map_of_mem _ he)

theorem mem_findRunningEntries_sid_lt (s : RepoState) (hE : EventsWF s) {e : TimeEntry}
    (he : e ∈ findRunningEntries s) : e.startEventId < s.nextId :=
  mem_runningIds_lt s hE (mem_findRunningEntries_sid_mem he)

theorem stopSave_state (s : RepoState) (hE : EventsWF s) (hR : RefsWF s)
    (a r now : Int) (hr : r < s.nextId) :
    EventsWF (saveEvent s (TimeEntryEvent.stopAt a r now)).2 ∧
    RefsWF (saveEvent s (TimeEntryEvent.stopAt a r now)).2 ∧
    runningIds (saveEvent s (TimeEntryEvent.stopAt a r now)).2.events =
      (runningIds s.events).filter (fun sid => sid ≠ r) := by
  refine ⟨eventsWF_save s _ hE, refsWF_save s _ hR ?_, ?_⟩
  · intro x hx
    have : (TimeEntryEvent.stopAt a r now).startEventId = some r := rfl
    rw [this] at hx
    cases hx
    exact hr
  · rw [saveEvent_events]
    exact runningIds_append_stop s.events a r now s.nextId

theorem startSave_state (s : RepoState) (hE : EventsWF s) (hR : RefsWF s) (t now : Int) :
    EventsWF (saveEvent s (TimeEntryEvent.startAt t now)).2 ∧
    RefsWF (saveEvent s (TimeEntryEvent.startAt t now)).2 ∧
    runningIds (saveEvent s (TimeEntryEvent.startAt t now)).2.events =
      runningIds s.events ++ [s.nextId] := by
  refine ⟨eventsWF_save s _ hE, refsWF_save s _ hR ?_, ?_⟩
  · intro x hx
    cases hx
  · rw [saveEvent_events]
    exact runningIds_append_start s.events t now s.nextId (hasStopFor_nextId_false s hR)

theorem startTimer_unfold (s : RepoState) (t now : Int) :
    (startTimer s t now).2 =
      (saveEvent (match findRunningEntryByTask
          ((findRunningEntries s).foldl (fun st entry =>
            if entry.taskId ≠ t then
              (saveEvent st (TimeEntryEvent.stopAt entry.taskId entry.startEventId now)).2
            else st) s) t with
        | some entry => (saveEvent ((findRunningEntries s).foldl (fun st entry =>
            if entry.taskId ≠ t then
              (saveEvent st (TimeEntryEvent.stopAt entry.taskId entry.startEventId now)).2
            else st) s) (TimeEntryEvent.stopAt t entry.startEventId now)).2
        | none => (findRunningEntries s).foldl (fun st entry =>
            if entry.taskId ≠ t then
              (saveEvent st (TimeEntryEvent.stopAt entry.taskId entry.startEventId now)).2
            else st) s) (TimeEntryEvent.startAt t now)).2 := rfl

theorem startTimer_inv (s : RepoState) (t now : Int) (h : RepoInv s) :
    RepoInv (startTimer s t now).2 ∧
    (runningIds (startTimer s t now).2.events).length = 1 := by
  obtain ⟨hE, hR, hlen⟩ := h
  have hflen : (findRunningEntries s).length ≤ 1 := by
    rw [findRunningEntries_length_eq]; exact hlen
  rw [startTimer_unfold]
  cases hr : findRunningEntries s with
  | nil =>
    have hby : findRunningEntryByTask s t = none := findRunningEntryByTask_eq_none s t hr
    simp only [List.foldl_nil]
    rw [hby]
    have hrun : runningIds s.events = [] := by
      have hq := findRunningEntries_length_eq s
      rw [hr] at hq
      exact List.length_eq_zero.1 hq.symm
    obtain ⟨hE2, hR2, heq⟩ := startSave_state s hE hR t now
    refine ⟨⟨hE2, hR2, ?_⟩, ?_⟩ <;> rw [heq, hrun] <;> simp
  | cons e rest =>
    have hrest : rest = [] := by
      rw [hr, List.length_cons] at hflen
      have hz : rest.length = 0 := by omega
      exact List.length_eq_zero.1 hz
    subst hrest
    have hmem : e ∈ findRunningEntries s := by rw [hr]; exact List.mem_singleton.2 rfl
    have hsid : runningIds s.events = [e.startEventId] :=
      runningIds_eq_of_findRunningEntries_singleton s hr
    have hlt : e.startEventId < s.nextId := mem_findRunningEntries_sid_lt s hE hmem
    simp only [List.foldl_cons, List.foldl_nil]
    by_cases het : e.taskId = t
    · -- the running task is the one being started: phase 1 skips it,
      -- phase 2 stops it
      rw [if_neg (by intro hc; exact hc het)]
      obtain ⟨x, hx⟩ := findRunningEntryByTask_isSome hmem het
      have hxe : x = e := by
        have hq := (findRunningEntryByTask_mem hx).1
        rw [hr] at hq
        exact List.mem_singleton.1 hq
      subst hxe
      rw [hx]
      obtain ⟨hE1, hR1, heq1⟩ := stopSave_state s hE hR t x.startEventId now hlt
      have hrun1 : runningIds (saveEvent s (TimeEntryEvent.stopAt t x.startEventId now)).2.events = [] := by
        rw [heq1, hsid]
        simp
      obtain ⟨hE2, hR2, heq2⟩ :=
        startSave_state (saveEvent s (TimeEntryEvent.stopAt t x.startEventId now)).2 hE1 hR1 t now
      refine ⟨⟨hE2, hR2, ?_⟩, ?_⟩ <;> rw [heq2, hrun1] <;> simp
    · -- another task is running: phase 1 stops it, phase 2 finds nothing
      rw [if_pos het]
      obtain ⟨hE1, hR1, heq1⟩ := stopSave_state s hE hR e.taskId e.startEventId now hlt
      have hrun1 : runningIds (saveEvent s (TimeEntryEvent.stopAt e.taskId e.startEventId now)).2.events = [] := by
        rw [heq1, hsid]
        simp
      have hby : findRunningEntryByTask
          (saveEvent s (TimeEntryEvent.stopAt e.taskId e.startEventId now)).2 t = none :=
        findRunningEntryByTask_eq_none _ t
          (findRunningEntries_eq_nil_of_runningIds _ hrun1)
      rw [hby]
      obtain ⟨hE2, hR2, heq2⟩ :=
        startSave_state (saveEvent s (TimeEntryEvent.stopAt e.taskId e.startEventId now)).2 hE1 hR1 t now
      refine ⟨⟨hE2, hR2, ?_⟩, ?_⟩ <;> rw [heq2, hrun1] <;> simp

theorem stopTimer_state_none (s : RepoState) (t now : Int)
    (h : findRunningEntryByTask s t = none) : (stopTimer s t now).2 = s := by
  unfold stopTimer
  rw [h]

theorem stopTimer_state_some (s : RepoState) (t now : Int) (e : TimeEntry)
    (h : findRunningEntryByTask s t = some e) :
    (stopTimer s t now).2 = (saveEvent s (TimeEntryEvent.stopAt t e.startEventId now)).2 := by
  unfold stopTimer
  rw [h]

theorem stopTimer_inv (s : RepoState) (t now : Int) (h : RepoInv s) :
    RepoInv (stopTimer s t now).2 := by
  obtain ⟨hE, hR, hlen⟩ := h
  cases hf : findRunningEntryByTask s t with
  | none => rw [stopTimer_state_none s t now hf]; exact ⟨hE, hR, hlen⟩
  | some e =>
    rw [stopTimer_state_some s t now e hf]
    obtain ⟨hmem, _⟩ := findRunningEntryByTask_mem hf
    have hlt := mem_findRunningEntries_sid_lt s hE hmem
    obtain ⟨hE1, hR1, heq1⟩ := stopSave_state s hE hR t e.startEventId now hlt
    refine ⟨hE1, hR1, ?_⟩
    rw [heq1]
    exact le_trans (List.length_filter_le _ _) hlen

theorem stopAllTimers_inv (s : RepoState) (now : Int) (h : RepoInv s) :
    RepoInv (stopAllTimers s now).2 := by
  obtain ⟨hE, hR, hlen⟩ := h
  have hflen : (findRunningEntries s).length ≤ 1 := by
    rw [findRunningEntries_length_eq]; exact hlen
  unfold stopAllTimers
  cases hr : findRunningEntries s with
  | nil =>
    simp only [List.foldl_nil]
    exact ⟨hE, hR, hlen⟩
  | cons e rest =>
    have hrest : rest = [] := by
      rw [hr, List.length_cons] at hflen
      have hz : rest.length = 0 := by omega
      exact List.length_eq_zero.1 hz
    subst hrest
    simp only [List.foldl_cons, List.foldl_nil]
    have hmem : e ∈ findRunningEntries s := by rw [hr]; exact List.mem_singleton.2 rfl
    have hlt := mem_findRunningEntries_sid_lt s hE hmem
    obtain ⟨hE1, hR1, heq1⟩ := stopSave_state s hE hR e.taskId e.startEventId now hlt
    refine ⟨hE1, hR1, ?_⟩
    rw [heq1]
    exact le_trans (List.length_filter_le _ _) hlen

theorem saveEvent_fst_getD (s : RepoState) (e : TimeEntryEvent) (d : Int) :
    (saveEvent s e).1.id.getD d = s.nextId := rfl

theorem annotateSave_state (s : RepoState) (hE : EventsWF s) (hR : RefsWF s)
    (a r : Int) (note : String) (now : Int) (hr : r < s.nextId) :
    EventsWF (saveEvent s (TimeEntryEvent.annotateAt a r note now)).2 ∧
    RefsWF (saveEvent s (TimeEntryEvent.annotateAt a r note now)).2 ∧
    runningIds (saveEvent s (TimeEntryEvent.annotateAt a r note now)).2.events =
      runningIds s.events := by
  refine ⟨eventsWF_save s _ hE, refsWF_save s _ hR ?_, ?_⟩
  · intro x hx
    have hq : (TimeEntryEvent.annotateAt a r note now).startEventId = some r := rfl
    rw [hq] at hx
    cases hx
    exact hr
  · rw [saveEvent_events]
    exact runningIds_append_annotate s.events a r note now s.nextId

theorem manualPair_state (s : RepoState) (hE : EventsWF s) (hR : RefsWF s)
    (t st en : Int) :
    EventsWF (saveEvent (saveEvent s (TimeEntryEvent.startAt t st)).2
      (TimeEntryEvent.stopAt t s.nextId en)).2 ∧
    RefsWF (saveEvent (saveEvent s (TimeEntryEvent.startAt t st)).2
      (TimeEntryEvent.stopAt t s.nextId en)).2 ∧
    runningIds (saveEvent (saveEvent s (TimeEntryEvent.startAt t st)).2
      (TimeEntryEvent.stopAt t s.nextId en)).2.events = runningIds s.events := by
  obtain ⟨hE1, hR1, heq1⟩ := startSave_state s hE hR t st
  have hlt : s.nextId < (saveEvent s (TimeEntryEvent.startAt t st)).2.nextId := by
    rw [saveEvent_nextId]; omega
  obtain ⟨hE2, hR2, heq2⟩ :=
    stopSave_state (saveEvent s (TimeEntryEvent.startAt t st)).2 hE1 hR1 t s.nextId en hlt
  refine ⟨hE2, hR2, ?_⟩
  rw [heq2, heq1, List.filter_append]
  have h1 : (runningIds s.events).filter (fun sid => sid ≠ s.nextId) = runningIds s.events :=
    List.filter_eq_self.2 (fun x hx => by
      have := mem_runningIds_lt s hE hx
      simp only [ne_eq, decide_eq_true_eq]
      omega)
  rw [h1]
  simp

theorem addManualEntry_exec_inv (s : RepoState) (t st en : Int) (note : Option String)
    (now : Int) (h : RepoInv s) :
    RepoInv (execOp s (.manualOp t st en note now)) := by
  obtain ⟨hE, hR, hlen⟩ := h
  show RepoInv (match addManualEntry s t st en note now with
    | .ok r => r.2
    | .error _ => s)
  unfold addManualEntry
  by_cases h1 : st ≥ en
  · rw [if_pos h1]
    exact ⟨hE, hR, hlen⟩
  · rw [if_neg h1]
    by_cases h2 : (findOverlappingEntries s t st en).isEmpty
    · rw [if_pos h2]
      obtain ⟨hE2, hR2, heq2⟩ := manualPair_state s hE hR t st en
      cases note with
      | none =>
        simp only [saveEvent_fst_getD]
        refine ⟨hE2, hR2, ?_⟩
        rw [heq2]
        exact hlen
      | some nt =>
        simp only [saveEvent_fst_getD]
        have hlt : s.nextId < (saveEvent (saveEvent s (TimeEntryEvent.startAt t st)).2
            (TimeEntryEvent.stopAt t s.nextId en)).2.nextId := by
          rw [saveEvent_nextId, saveEvent_nextId]; omega
        obtain ⟨hE3, hR3, heq3⟩ := annotateSave_state _ hE2 hR2 t s.nextId nt now hlt
        refine ⟨hE3, hR3, ?_⟩
        rw [heq3, heq2]
        exact hlen
    · rw [if_neg h2]
      exact ⟨hE, hR, hlen⟩

theorem execOp_inv (s : RepoState) (op : TimerOp) (h : RepoInv s) :
    RepoInv (execOp s op) := by
  cases op with
  | startOp t now => exact (startTimer_inv s t now h).1
  | stopOp t now => exact stopTimer_inv s t now h
  | manualOp t st en note now => exact addManualEntry_exec_inv s t st en note now h
  | stopAllOp now => exact stopAllTimers_inv s now h

theorem foldl_execOp_inv (ops : List TimerOp) :
    ∀ s, RepoInv s → RepoInv (ops.foldl execOp s) := by
  induction ops with
  | nil => intro s h; exact h
  | cons op ops ih =>
    intro s h
    exact ih (execOp s op) (execOp_inv s op h)

theorem runOps_inv (ops : List TimerOp) : RepoInv (runOps ops) :=
  foldl_execOp_inv ops RepoState.initial
    ⟨eventsWF_initial, refsWF_initial, by simp [RepoState.initial, runningIds, startIds]⟩

/-- C1: starting from an empty event log, for every sequence of
`start_timer`, `stop_timer`, `add_manual_entry` and `stop_all_timers`
calls executed sequentially, after each `start_timer` call the derived
entries contain at most one running interval (`end_time = None`); in
fact exactly one.  Every `start_timer` in a sequence is the last call of
some prefix, so quantifying over an arbitrary preceding sequence covers
every call site. -/
theorem startTimer_exclusivity (ops : List TimerOp) (t now : Int) :
    (findRunningEntries (startTimer (runOps ops) t now).2).length ≤ 1 := by
  have h := (startTimer_inv (runOps ops) t now (runOps_inv ops)).2
  rw [findRunningEntries_length_eq]
  omega

theorem replaySaves_eventsWF (saves : List TimeEntryEvent) :
    EventsWF (replaySaves saves) := by
  have haux : ∀ s, EventsWF s → EventsWF (saves.foldl (fun st e => (saveEvent st e).2) s) := by
    induction saves with
    | nil => intro s h; exact h
    | cons e saves ih =>
      intro s h
      exact ih _ (eventsWF_save s e h)
  exact haux RepoState.initial eventsWF_initial

theorem find?_eq_head?_filter {α : Type} (p : α → Bool) (l : List α) :
    l.find? p = (l.filter p).head? := by
  induction l with
  | nil => rfl
  | cons a l ih =>
    cases hp : p a
    · rw [List.find?_cons_of_neg _ (by simp [hp]), List.filter_cons_of_neg (by simp [hp])]
      exact ih
    · rw [List.find?_cons_of_pos _ hp, List.filter_cons_of_pos hp, List.head?_cons]

theorem pairwise_idVal (s : RepoState) (hw : EventsWF s) :
    s.events.Pairwise (fun a b => a.id.getD 0 < b.id.getD 0) := by
  refine hw.idAsc.imp_of_mem ?_
  intro a b ha hb hrel
  obtain ⟨ia, hia, _⟩ := hw.idBound a ha
  obtain ⟨ib, hib, _⟩ := hw.idBound b hb
  rw [hia, hib]
  simpa using hrel ia ib hia hib

theorem foldl_minBy_first {α : Type} (key : α → Int) (m : α) (rest : List α)
    (h : ∀ e ∈ rest, key m < key e) :
    rest.foldl (fun acc e => if key e < key acc then e else acc) m = m := by
  induction rest with
  | nil => rfl
  | cons e rest ih =>
    rw [List.foldl_cons, if_neg (by have := h e (List.mem_cons_self e rest); omega)]
    exact ih (fun x hx => h x (List.mem_cons_of_mem e hx))

theorem minIdStop_eq_find? (evs : List TimeEntryEvent) (sid : Int)
    (hasc : evs.Pairwise (fun a b => a.id.getD 0 < b.id.getD 0)) :
    minIdStop evs sid = evs.find? (fun e => e.isStop && e.startEventId == some sid) := by
  rw [find?_eq_head?_filter]
  unfold minIdStop
  have hMp := hasc.filter (fun e => e.isStop && e.startEventId == some sid)
  cases hM : evs.filter (fun e => e.isStop && e.startEventId == some sid) with
  | nil => rfl
  | cons m rest =>
    rw [hM] at hMp
    rw [List.pairwise_cons] at hMp
    rw [List.head?_cons]
    show some (rest.foldl (fun acc e => if e.id.getD 0 < acc.id.getD 0 then e else acc) m) = some m
    exact congrArg some (foldl_minBy_first (fun e => e.id.getD 0) m rest hMp.1)

/-- C2: for every stored event log (arbitrary `save_event` history) and
every Start event in it, the derived entry closes at the Stop event with
the smallest id among the Stops referencing that Start, or stays open if
none exists.  The store assigns strictly increasing ids in log order, so
the source's first-match scan realises exactly this rule. -/
theorem derivation_tiebreak_minId (saves : List TimeEntryEvent) :
    ∀ entry ∈ buildTimeEntries (replaySaves saves),
      entry.endTime =
        (minIdStop (replaySaves saves).events entry.startEventId).map (fun e => e.atTime) := by
  intro entry hmem
  have hE := replaySaves_eventsWF saves
  have hasc := pairwise_idVal _ hE
  unfold buildTimeEntries at hmem
  rw [mem_sortOn] at hmem
  unfold rawEntries at hmem
  rw [List.mem_filterMap] at hmem
  obtain ⟨ev, hm, hsome⟩ := hmem
  cases hid : ev.id with
  | none => rw [hid] at hsome; cases hsome
  | some sid =>
    rw [hid] at hsome
    cases hst : ev.isStart
    · rw [hst] at hsome; simp at hsome
    · rw [hst] at hsome
      simp only [if_true, Option.some.injEq] at hsome
      subst hsome
      have hsid : (entryForStart (replaySaves saves).events ev sid).startEventId = sid := rfl
      rw [hsid, minIdStop_eq_find? _ sid hasc]
      rfl

/-- C3 (amended): for every store, each derived entry's
`duration_in_seconds` equals `end_time - start_time` in whole seconds
when closed (`none` when running); the difference is NOT clamped and no
error is raised when the Stop's `at` precedes the Start's `at` — the
duration is simply negative. -/
theorem duration_eq_end_sub_start (s : RepoState) :
    ∀ entry ∈ buildTimeEntries s,
      entry.durationInSeconds = entry.endTime.map (fun e => e - entry.startTime) := by
  intro entry hmem
  unfold buildTimeEntries at hmem
  rw [mem_sortOn] at hmem
  unfold rawEntries at hmem
  rw [List.mem_filterMap] at hmem
  obtain ⟨ev, hm, hsome⟩ := hmem
  cases hid : ev.id with
  | none => rw [hid] at hsome; cases hsome
  | some sid =>
    rw [hid] at hsome
    cases hst : ev.isStart
    · rw [hst] at hsome; simp at hsome
    · rw [hst] at hsome
      simp only [if_true, Option.some.injEq] at hsome
      subst hsome
      rfl

/-- C3 counterexample: a Stop whose `at` (5) precedes its Start's `at`
(10) derives into an entry with duration -5; the derivation succeeds and
surfaces no data-integrity error, contradicting the claim's "never
negative / surfaced as error" part. -/
theorem duration_negative_counterexample :
    buildTimeEntries (replaySaves
        [TimeEntryEvent.startAt 1 10, TimeEntryEvent.stopAt 1 1 5]) =
      [{ taskId := 1, startEventId := 1, startTime := 10, endTime := some 5,
         durationInSeconds := some (-5) }] ∧ (-5 : Int) < 0 := by
  exact ⟨by decide, by decide⟩

theorem duration_eq_end_sub_start_witness :
    ({ taskId := 1, startEventId := 1, startTime := 10, endTime := some 5,
       durationInSeconds := some (-5) } : TimeEntry) ∈
        buildTimeEntries (replaySaves
          [TimeEntryEvent.startAt 1 10, TimeEntryEvent.stopAt 1 1 5]) ∧
    ({ taskId := 1, startEventId := 1, startTime := 10, endTime := some 5,
       durationInSeconds := some (-5) } : TimeEntry).durationInSeconds =
      (some (5 - 10) : Option Int) :=
  ⟨by decide, duration_eq_end_sub_start
    (replaySaves [TimeEntryEvent.startAt 1 10, TimeEntryEvent.stopAt 1 1 5])
    { taskId := 1, startEventId := 1, startTime := 10, endTime := some 5,
      durationInSeconds := some (-5) } (by decide)⟩

/-- C4 (amended): `get_running_task` returns none when no interval runs
and the unique running task when exactly one runs; when SEVERAL run it
silently returns the task of the first listed entry — one with maximal
`start_time` — rather than a data-integrity error (the source takes
`first()` on `find_running_entries`). -/
theorem getRunningTask_amended (s : RepoState) :
    (findRunningEntries s = [] → getRunningTask s = none) ∧
    (∀ e, findRunningEntries s = [e] → getRunningTask s = some e.taskId) ∧
    (∀ t, getRunningTask s = some t →
      ∃ e ∈ findRunningEntries s, e.taskId = t ∧
        ∀ x ∈ findRunningEntries s, x.startTime ≤ e.startTime) := by
  refine ⟨?_, ?_, ?_⟩
  · intro h
    unfold getRunningTask
    rw [h]
    rfl
  · intro e h
    unfold getRunningTask
    rw [h]
    rfl
  · intro t ht
    have hsorted : (findRunningEntries s).Pairwise
        (fun a b => (fun e : TimeEntry => -e.startTime) a ≤ (fun e : TimeEntry => -e.startTime) b) := by
      unfold findRunningEntries
      exact List.Pairwise.sublist (List.filter_sublist _)
        (sortOn_pairwise (fun e : TimeEntry => -e.startTime) (rawEntries s.events))
    unfold getRunningTask at ht
    cases hl : findRunningEntries s with
    | nil => rw [hl] at ht; cases ht
    | cons e0 tail =>
      rw [hl] at ht
      simp only [List.head?_cons, Option.map_some] at ht
      refine ⟨e0, List.mem_cons_self e0 tail, by cases ht; rfl, ?_⟩
      intro x hx
      rw [hl, List.pairwise_cons] at hsorted
      rcases List.mem_cons.1 hx with rfl | hx
      · omega
      · have hw := hsorted.1 x hx
        simp only [neg_le_neg_iff] at hw
        omega

/-- C4 counterexample: with two Start events and no Stop, two intervals
are running, and `get_running_task` returns `some 2` (the newest start)
instead of a data-integrity error. -/
theorem getRunningTask_silent_pick_counterexample :
    (findRunningEntries (replaySaves
        [TimeEntryEvent.startAt 1 5, TimeEntryEvent.startAt 2 10])).length = 2 ∧
    getRunningTask (replaySaves
        [TimeEntryEvent.startAt 1 5, TimeEntryEvent.startAt 2 10]) = some 2 := by
  exact ⟨by decide, by decide⟩

theorem getRunningTask_amended_witness :
    getRunningTask (replaySaves [TimeEntryEvent.startAt 7 3]) = some 7 := by
  have h := (getRunningTask_amended (replaySaves [TimeEntryEvent.startAt 7 3])).2.1
    { taskId := 7, startEventId := 1, startTime := 3, endTime := none,
      durationInSeconds := none } (by decide)
  exact h

/-- C10: both period queries return exactly the derived entries whose
`start_time` lies in the closed range `[start, end]` (both bounds
inclusive); `end_time` plays no part, so an interval overlapping the
period but started before `start` is not returned. -/
theorem period_query_inclusive (s : RepoState) (t startT endT : Int) (e : TimeEntry) :
    (e ∈ findEntriesByPeriod s startT endT ↔
      e ∈ buildTimeEntries s ∧ startT ≤ e.startTime ∧ e.startTime ≤ endT) ∧
    (e ∈ findEntriesByTaskAndPeriod s t startT endT ↔
      e ∈ buildTimeEntries s ∧ e.taskId = t ∧ startT ≤ e.startTime ∧ e.startTime ≤ endT) := by
  constructor
  · unfold findEntriesByPeriod
    rw [List.mem_filter]
    simp [and_assoc]
  · unfold findEntriesByTaskAndPeriod
    rw [List.mem_filter]
    simp [and_assoc]

theorem overlapPred_iff (e : TimeEntry) (t st en : Int) :
    ((e.taskId == t && decide (e.startTime < en) &&
      (match e.endTime with
       | none => true
       | some et => decide (st < et))) = true) ↔
    (e.taskId = t ∧ e.startTime < en ∧
      (e.endTime = none ∨ ∃ et, e.endTime = some et ∧ st < et)) := by
  cases he : e.endTime with
  | none => simp [he, and_assoc]
  | some et =>
    simp only [he, Bool.and_eq_true, beq_iff_eq, decide_eq_true_eq, and_assoc]
    constructor
    · rintro ⟨h1, h2, h3⟩
      exact ⟨h1, h2, Or.inr ⟨et, rfl, h3⟩⟩
    · rintro ⟨h1, h2, h3⟩
      refine ⟨h1, h2, ?_⟩
      rcases h3 with h3 | ⟨et', het', hlt⟩
      · cases h3
      · cases het'
        exact hlt

theorem overlap_exists_iff (s : RepoState) (t st en : Int) :
    (findOverlappingEntries s t st en).isEmpty = false ↔
      ∃ e ∈ buildTimeEntries s, e.taskId = t ∧ e.startTime < en ∧
        (e.endTime = none ∨ ∃ et, e.endTime = some et ∧ st < et) := by
  rw [List.isEmpty_eq_false_iff_exists_mem]
  constructor
  · rintro ⟨e, he⟩
    unfold findOverlappingEntries at he
    rw [List.mem_filter] at he
    exact ⟨e, he.1, (overlapPred_iff e t st en).1 he.2⟩
  · rintro ⟨e, hmem, hpred⟩
    refine ⟨e, ?_⟩
    unfold findOverlappingEntries
    rw [List.mem_filter]
    exact ⟨hmem, (overlapPred_iff e t st en).2 hpred⟩

/-- C5: `add_manual_entry` fails with the range error whenever
`start >= end`; given `start < end` it fails exactly when some existing
interval of the task overlaps `[start, end)` under the half-open test
`existing.start < end AND (existing.end is None OR existing.end >
start)`; on any failure the store is unchanged; on success exactly one
Start (at `start`), one Stop (at `end`, referencing that Start) and —
iff a note is given — one Annotate event are appended. -/
theorem addManualEntry_spec (s : RepoState) (t st en : Int) (note : Option String) (now : Int) :
    (st ≥ en → addManualEntry s t st en note now =
      .error "Start time must be before end time") ∧
    (st < en → ((∃ msg, addManualEntry s t st en note now = .error msg) ↔
      ∃ e ∈ buildTimeEntries s, e.taskId = t ∧ e.startTime < en ∧
        (e.endTime = none ∨ ∃ et, e.endTime = some et ∧ st < et))) ∧
    (∀ msg, addManualEntry s t st en note now = .error msg →
      execOp s (.manualOp t st en note now) = s) ∧
    (st < en →
      ¬(∃ e ∈ buildTimeEntries s, e.taskId = t ∧ e.startTime < en ∧
        (e.endTime = none ∨ ∃ et, e.endTime = some et ∧ st < et)) →
      ∃ r, addManualEntry s t st en note now = .ok r ∧
        r.2.events = s.events ++
          [(TimeEntryEvent.startAt t st).withId s.nextId,
           (TimeEntryEvent.stopAt t s.nextId en).withId (s.nextId + 1)] ++
          (match note with
           | some n => [(TimeEntryEvent.annotateAt t s.nextId n now).withId (s.nextId + 2)]
           | none => [])) := by
  refine ⟨?_, ?_, ?_, ?_⟩
  · intro h
    unfold addManualEntry
    rw [if_pos h]
  · intro hlt
    simp only [addManualEntry]
    rw [if_neg (by omega)]
    cases hemp : (findOverlappingEntries s t st en).isEmpty
    · constructor
      · intro _
        exact (overlap_exists_iff s t st en).1 hemp
      · intro _
        exact ⟨"Time entry overlaps with existing entries", rfl⟩
    · constructor
      · rintro ⟨msg, hmsg⟩
        rw [if_pos rfl] at hmsg
        cases note with
        | none => cases hmsg
        | some n => cases hmsg
      · intro hov
        have hfalse := (overlap_exists_iff s t st en).2 hov
        rw [hemp] at hfalse
        cases hfalse
  · intro msg hmsg
    show (match addManualEntry s t st en note now with
      | .ok r => r.2
      | .error _ => s) = s
    rw [hmsg]
  · intro hlt hnov
    simp only [addManualEntry]
    rw [if_neg (by omega)]
    have hemp : (findOverlappingEntries s t st en).isEmpty = true := by
      cases hemp : (findOverlappingEntries s t st en).isEmpty
      · exact absurd ((overlap_exists_iff s t st en).1 hemp) hnov
      · rfl
    rw [if_pos hemp]
    cases note with
    | none =>
      refine ⟨_, rfl, ?_⟩
      simp only [saveEvent_fst_getD, saveEvent_events, saveEvent_nextId]
      simp [List.append_assoc]
    | some n =>
      refine ⟨_, rfl, ?_⟩
      simp only [saveEvent_fst_getD, saveEvent_events, saveEvent_nextId]
      have h2 : s.nextId + 1 + 1 = s.nextId + 2 := by omega
      rw [h2]
      simp [List.append_assoc]

theorem addManualEntry_spec_witness :
    (10 : Int) < 20 ∧
    ∃ r, addManualEntry RepoState.initial 1 10 20 (some "n") 99 = .ok r ∧
      r.2.events = RepoState.initial.events ++
        [(TimeEntryEvent.startAt 1 10).withId RepoState.initial.nextId,
         (TimeEntryEvent.stopAt 1 RepoState.initial.nextId 20).withId
           (RepoState.initial.nextId + 1)] ++
        [(TimeEntryEvent.annotateAt 1 RepoState.initial.nextId "n" 99).withId
           (RepoState.initial.nextId + 2)] := by
  refine ⟨by decide, ?_⟩
  have h := (addManualEntry_spec RepoState.initial 1 10 20 (some "n") 99).2.2.2
    (by decide) (by rw [show buildTimeEntries RepoState.initial = [] from rfl]; simp)
  exact h

/-- C6: for an id with at least one saved version, `find_history` is
non-decreasing in `effective_at` (stable sort of the insertion-ordered
chain) and `find_by_id` — the version with maximal `effective_at`, ties
broken by the latest appended one (`max_by_key` keeps the last maximum)
— is exactly the last element of `find_history`. -/
theorem history_sorted_and_current (store : List Project) (id : Int)
    (_h : projVersions store id ≠ []) :
    (findProjectHistory store id).Pairwise (fun a b => a.effectiveAt ≤ b.effectiveAt) ∧
    findProjectById store id = (findProjectHistory store id).getLast? := by
  constructor
  · exact sortOn_pairwise (fun p => p.effectiveAt) (projVersions store id)
  · exact (getLast?_sortOn (fun p => p.effectiveAt) (projVersions store id)).symm

theorem history_sorted_and_current_witness :
    projVersions [({ id := 1, name := ['a'], status := Status.active, effectiveAt := 5 } : Project),
      { id := 1, name := ['b'], status := Status.active, effectiveAt := 3 },
      { id := 1, name := ['c'], status := Status.active, effectiveAt := 5 }] 1 ≠ [] ∧
    (findProjectHistory [({ id := 1, name := ['a'], status := Status.active, effectiveAt := 5 } : Project),
      { id := 1, name := ['b'], status := Status.active, effectiveAt := 3 },
      { id := 1, name := ['c'], status := Status.active, effectiveAt := 5 }] 1).Pairwise
        (fun a b => a.effectiveAt ≤ b.effectiveAt) ∧
    findProjectById [({ id := 1, name := ['a'], status := Status.active, effectiveAt := 5 } : Project),
      { id := 1, name := ['b'], status := Status.active, effectiveAt := 3 },
      { id := 1, name := ['c'], status := Status.active, effectiveAt := 5 }] 1 =
      (findProjectHistory [({ id := 1, name := ['a'], status := Status.active, effectiveAt := 5 } : Project),
        { id := 1, name := ['b'], status := Status.active, effectiveAt := 3 },
        { id := 1, name := ['c'], status := Status.active, effectiveAt := 5 }] 1).getLast? := by
  refine ⟨by decide, ?_, ?_⟩
  · exact (history_sorted_and_current _ 1 (by decide)).1
  · exact (history_sorted_and_current _ 1 (by decide)).2

/-- C7 (amended): `restore()` requires the current status to be Archived
— a state error otherwise — on both Project and Task; `archive()` checks
NO precondition: it returns a fresh Archived version whatever the
current status (archiving an already-Archived entity silently
succeeds). -/
theorem archive_restore_preconditions (p : Project) (tk : WorkTask) (now : Int) :
    (p.status = .archived →
      Project.restore p now = .ok ⟨p.id, p.name, .active, now⟩) ∧
    (p.status ≠ .archived →
      Project.restore p now = .error "Project is not archived") ∧
    Project.archive p now = ⟨p.id, p.name, .archived, now⟩ ∧
    (tk.status = .archived →
      WorkTask.restore tk now = .ok ⟨tk.id, tk.projectId, tk.name, .active, now⟩) ∧
    (tk.status ≠ .archived →
      WorkTask.restore tk now = .error "Task is not archived") ∧
    WorkTask.archive tk now = ⟨tk.id, tk.projectId, tk.name, .archived, now⟩ := by
  refine ⟨?_, ?_, rfl, ?_, ?_, rfl⟩
  · intro h
    unfold Project.restore
    rw [if_neg (by simp [h])]
  · intro h
    unfold Project.restore
    rw [if_pos h]
  · intro h
    unfold WorkTask.restore
    rw [if_neg (by simp [h])]
  · intro h
    unfold WorkTask.restore
    rw [if_pos h]

/-- C7 counterexample: archiving an already-Archived project (or task)
does not produce a state error — it succeeds and returns a new Archived
version stamped with the new time. -/
theorem archive_wrong_status_counterexample :
    Project.archive { id := 1, name := ['a'], status := Status.archived, effectiveAt := 0 } 5 =
      { id := 1, name := ['a'], status := Status.archived, effectiveAt := 5 } ∧
    WorkTask.archive { id := 1, projectId := 1, name := ['t'], status := Status.archived, effectiveAt := 0 } 5 =
      { id := 1, projectId := 1, name := ['t'], status := Status.archived, effectiveAt := 5 } :=
  ⟨rfl, rfl⟩

theorem archive_restore_preconditions_witness :
    Project.restore { id := 1, name := ['a'], status := Status.archived, effectiveAt := 0 } 7 =
      .ok { id := 1, name := ['a'], status := Status.active, effectiveAt := 7 } :=
  (archive_restore_preconditions
    { id := 1, name := ['a'], status := Status.archived, effectiveAt := 0 }
    { id := 2, projectId := 1, name := ['t'], status := Status.archived, effectiveAt := 0 }
    7).1 rfl

/-- C9 (amended): construction and rename of Project and Task fail
exactly when the name is empty after trimming OR the UNTRIMMED name
exceeds 255 bytes (the length check runs on the raw input, before
trimming, and counts UTF-8 bytes); on success the stored name is the
trimmed input. -/
theorem name_validation (id pid : Int) (name : List Char) (p : Project) (now : Int) :
    ((∃ q, Project.new id name now = .ok q) ↔
      (trimChars name ≠ [] ∧ byteLen name ≤ 255)) ∧
    (∀ q, Project.new id name now = .ok q → q.name = trimChars name) ∧
    ((∃ q, Project.changeName p name now = .ok q) ↔
      (trimChars name ≠ [] ∧ byteLen name ≤ 255)) ∧
    (∀ q, Project.changeName p name now = .ok q → q.name = trimChars name) ∧
    ((∃ q, WorkTask.new id pid name now = .ok q) ↔
      (trimChars name ≠ [] ∧ byteLen name ≤ 255)) ∧
    (∀ q, WorkTask.new id pid name now = .ok q → q.name = trimChars name) := by
  have hempty : (trimChars name).isEmpty = true ↔ trimChars name = [] := by
    cases trimChars name <;> simp
  unfold Project.new Project.changeName WorkTask.new
  by_cases h1 : (trimChars name).isEmpty
  · rw [if_pos h1, if_pos h1, if_pos h1]
    have h1' : trimChars name = [] := hempty.1 h1
    refine ⟨?_, ?_, ?_, ?_, ?_, ?_⟩ <;>
      first
        | (constructor
           · rintro ⟨q, hq⟩; cases hq
           · rintro ⟨hne, _⟩; exact absurd h1' hne)
        | (intro q hq; cases hq)
  · rw [if_neg h1, if_neg h1, if_neg h1]
    have h1' : trimChars name ≠ [] := fun hc => h1 (hempty.2 hc)
    by_cases h2 : byteLen name > 255
    · rw [if_pos h2, if_pos h2, if_pos h2]
      refine ⟨?_, ?_, ?_, ?_, ?_, ?_⟩ <;>
        first
          | (constructor
             · rintro ⟨q, hq⟩; cases hq
             · rintro ⟨_, hle⟩; omega)
          | (intro q hq; cases hq)
    · rw [if_neg h2, if_neg h2, if_neg h2]
      refine ⟨?_, ?_, ?_, ?_, ?_, ?_⟩ <;>
        first
          | (constructor
             · intro _; exact ⟨h1', by omega⟩
             · intro _; exact ⟨_, rfl⟩)
          | (intro q hq; cases hq; rfl)

set_option maxRecDepth 4000 in
/-- C9 counterexample: a name of 250 spaces followed by "abcdef" is 256
bytes long, so `Project::new` rejects it, although its trimmed form
("abcdef", 6 bytes) is well within the 255 limit — the claim's "accepted
regardless of surrounding whitespace" fails because the length check
precedes trimming. -/
theorem name_validation_counterexample :
    Project.new 1 (List.replicate 250 ' ' ++ "abcdef".data) 0 =
      .error "Project name cannot exceed 255 characters" ∧
    trimChars (List.replicate 250 ' ' ++ "abcdef".data) = "abcdef".data ∧
    byteLen "abcdef".data ≤ 255 := by
  refine ⟨?_, by decide, by decide⟩
  unfold Project.new
  rw [if_neg (by decide), if_pos (by decide)]

theorem name_validation_witness :
    Project.new 1 " hi ".data 0 = .ok { id := 1, name := "hi".data, status := Status.active, effectiveAt := 0 } ∧
    ({ id := 1, name := "hi".data, status := Status.active, effectiveAt := 0 } : Project).name = trimChars " hi ".data := by
  have hok : Project.new 1 " hi ".data 0 =
      .ok { id := 1, name := "hi".data, status := Status.active, effectiveAt := 0 } := by
    unfold Project.new
    rw [if_neg (by decide), if_neg (by decide)]
    have ht : trimChars " hi ".data = "hi".data := by decide
    rw [ht]
  refine ⟨hok, ?_⟩
  exact (name_validation 1 1 " hi ".data
      { id := 9, name := ['x'], status := Status.active, effectiveAt := 0 } 0).2.1
    { id := 1, name := "hi".data, status := Status.active, effectiveAt := 0 } hok

/-! Lemmas for the cascading archive (C8). -/

theorem mem_uniqueKeys : ∀ (l : List Int) (x : Int), x ∈ uniqueKeys l ↔ x ∈ l := by
  have H : ∀ (n : Nat) (l : List Int), l.length ≤ n → ∀ x, (x ∈ uniqueKeys l ↔ x ∈ l) := by
    intro n
    induction n with
    | zero =>
      intro l hl x
      have hq : l = [] := List.length_eq_zero.1 (Nat.le_zero.1 hl)
      subst hq
      rw [uniqueKeys]
    | succ n ih =>
      intro l hl x
      cases l with
      | nil => rw [uniqueKeys]
      | cons y ys =>
        rw [uniqueKeys]
        rw [List.length_cons] at hl
        have hlen : (ys.filter (fun z => z ≠ y)).length ≤ n :=
          le_trans (List.length_filter_le _ _) (Nat.lt_succ_iff.1 (Nat.lt_of_lt_of_le (Nat.lt_succ_self _) hl))
        rw [List.mem_cons, ih _ hlen x, List.mem_filter, List.mem_cons]
        by_cases hx : x = y
        · simp [hx]
        · simp [hx]
  exact fun l x => H l.length l (le_refl _) x

theorem foldl_maxF_mem {α : Type} (key : α → Int) :
    ∀ (l : List α) (a : α), l.foldl (maxF key) a ∈ a :: l := by
  intro l
  induction l with
  | nil => intro a; exact List.mem_singleton.2 rfl
  | cons b l ih =>
    intro a
    rw [List.foldl_cons]
    have hab : maxF key a b = b ∨ maxF key a b = a := by
      unfold maxF
      split_ifs
      · exact Or.inl rfl
      · exact Or.inr rfl
    have hm := ih (maxF key a b)
    rcases hab with hab | hab <;> rw [hab] at hm ⊢
    · rcases List.mem_cons.1 hm with h | h
      · rw [h]; exact List.mem_cons_of_mem a (List.mem_cons_self b l)
      · exact List.mem_cons_of_mem a (List.mem_cons_of_mem b h)
    · rcases List.mem_cons.1 hm with h | h
      · rw [h]; exact List.mem_cons_self a _
      · exact List.mem_cons_of_mem a (List.mem_cons_of_mem b h)

theorem maxByKeyLast_mem {α : Type} {key : α → Int} {l : List α} {m : α}
    (h : maxByKeyLast key l = some m) : m ∈ l := by
  cases l with
  | nil => cases h
  | cons a l =>
    simp only [maxByKeyLast, Option.some.injEq] at h
    rw [← h]
    exact foldl_maxF_mem key l a

theorem foldl_maxF_const {α : Type} (key : α → Int) :
    ∀ (l : List α) (a : α) (c : Int), (∀ v ∈ l, key v = c) → key a ≤ c → l ≠ [] →
      l.foldl (maxF key) a ∈ l := by
  intro l
  induction l with
  | nil => intro a c _ _ hne; exact absurd rfl hne
  | cons v l ih =>
    intro a c hc ha _
    rw [List.foldl_cons]
    have hav : maxF key a v = v := by
      unfold maxF
      rw [if_pos (by rw [hc v (List.mem_cons_self v l)]; exact ha)]
    rw [hav]
    cases hl : l with
    | nil => subst hl; exact List.mem_singleton.2 rfl
    | cons w l' =>
      subst hl
      have := ih v c (fun x hx => hc x (List.mem_cons_of_mem v hx))
        (by rw [hc v (List.mem_cons_self v _)]) (by simp)
      exact List.mem_cons_of_mem v this

theorem maxByKeyLast_append_const {α : Type} (key : α → Int) (l₁ l₂ : List α) (c : Int)
    (h2 : ∀ v ∈ l₂, key v = c) (h1 : ∀ u ∈ l₁, key u ≤ c) (hne : l₂ ≠ []) :
    ∃ m ∈ l₂, maxByKeyLast key (l₁ ++ l₂) = some m := by
  cases l₁ with
  | nil =>
    rw [List.nil_append]
    cases l₂ with
    | nil => exact absurd rfl hne
    | cons v l =>
      refine ⟨l.foldl (maxF key) v, ?_, rfl⟩
      exact foldl_maxF_mem key l v
  | cons b l₁' =>
    rw [List.cons_append]
    have hsplit : (l₁' ++ l₂).foldl (maxF key) b = l₂.foldl (maxF key) (l₁'.foldl (maxF key) b) :=
      List.foldl_append _ _ _ _
    have haMem : l₁'.foldl (maxF key) b ∈ b :: l₁' := foldl_maxF_mem key l₁' b
    have haLe : key (l₁'.foldl (maxF key) b) ≤ c := h1 _ haMem
    refine ⟨l₂.foldl (maxF key) (l₁'.foldl (maxF key) b), ?_, ?_⟩
    · exact foldl_maxF_const key l₂ _ c h2 haLe hne
    · simp only [maxByKeyLast, Option.some.injEq]
      exact hsplit

theorem maxByKeyLast_append_singleton {α : Type} (key : α → Int) (l : List α) (v : α)
    (h : ∀ u ∈ l, key u ≤ key v) : maxByKeyLast key (l ++ [v]) = some v := by
  obtain ⟨m, hm, heq⟩ := maxByKeyLast_append_const key l [v] (key v)
    (fun x hx => by rw [List.mem_singleton.1 hx]) h (by simp)
  rw [List.mem_singleton.1 hm] at heq
  exact heq

theorem findTaskById_some {store : List WorkTask} {tid : Int} {t : WorkTask}
    (h : findTaskById store tid = some t) : t ∈ store ∧ t.id = tid := by
  have hmem := maxByKeyLast_mem h
  unfold taskVersions at hmem
  exact ⟨List.mem_of_mem_filter hmem, by
    have := List.of_mem_filter hmem
    rwa [beq_iff_eq] at this⟩

theorem findProjectById_some {store : List Project} {pid : Int} {p : Project}
    (h : findProjectById store pid = some p) : p ∈ store ∧ p.id = pid := by
  have hmem := maxByKeyLast_mem h
  unfold projVersions at hmem
  exact ⟨List.mem_of_mem_filter hmem, by
    have := List.of_mem_filter hmem
    rwa [beq_iff_eq] at this⟩

theorem mem_findActiveByProjectId {store : List WorkTask} {pid : Int} {a : WorkTask} :
    a ∈ findActiveByProjectId store pid ↔
      (findTaskById store a.id = some a ∧ a.projectId = pid ∧ a.status = .active ∧
        a.id ∈ taskIdsOf store) := by
  unfold findActiveByProjectId
  rw [List.mem_filterMap]
  constructor
  · rintro ⟨tid, htid, hsome⟩
    cases hf : findTaskById store tid with
    | none => rw [hf] at hsome; cases hsome
    | some t =>
      rw [hf] at hsome
      have hsome2 : (if t.projectId == pid && t.status == Status.active then some t
          else none) = some a := hsome
      by_cases hc : t.projectId == pid && t.status == Status.active
      · rw [if_pos hc] at hsome2
        have hta : t = a := by injection hsome2
        subst hta
        rw [Bool.and_eq_true, beq_iff_eq, beq_iff_eq] at hc
        have hid : t.id = tid := (findTaskById_some hf).2
        rw [hid]
        exact ⟨hf, hc.1, hc.2, htid⟩
      · rw [if_neg hc] at hsome2
        cases hsome2
  · rintro ⟨hf, hproj, hact, hids⟩
    refine ⟨a.id, hids, ?_⟩
    rw [hf]
    show (if a.projectId == pid && a.status == Status.active then some a else none) = some a
    rw [if_pos (by rw [Bool.and_eq_true, beq_iff_eq, beq_iff_eq]; exact ⟨hproj, hact⟩)]

theorem foldl_saveTask (now : Int) :
    ∀ (A : List WorkTask) (st : List WorkTask),
      A.foldl (fun st t => saveTask st (WorkTask.archive t now)) st =
        st ++ A.map (fun t => WorkTask.archive t now) := by
  intro A
  induction A with
  | nil => intro st; simp
  | cons a A ih =>
    intro st
    rw [List.foldl_cons, ih, List.map_cons]
    unfold saveTask
    rw [List.append_assoc]
    rfl

theorem taskVersions_append (s1 s2 : List WorkTask) (tid : Int) :
    taskVersions (s1 ++ s2) tid = taskVersions s1 tid ++ taskVersions s2 tid :=
  List.filter_append _ _

/-- C8: `archive_project_with_tasks` fails on an unknown id and on an
already-archived project; on an Active project it appends an Archived
version (stamped `now`) for every task whose current version belongs to
the project and is Active, then one for the project itself; afterwards
the project's current version and every task currently belonging to the
project are Archived, and a second call on the same project fails.  The
clock hypotheses say `now` does not precede any stored version's
`effective_at` — true of the monotone wall clock the service uses. -/
theorem archiveProjectWithTasks_spec (pstore : List Project) (tstore : List WorkTask)
    (pid now : Int)
    (hclockP : ∀ q ∈ pstore, q.effectiveAt ≤ now)
    (hclockT : ∀ u ∈ tstore, u.effectiveAt ≤ now) :
    (findProjectById pstore pid = none →
      archiveProjectWithTasks pstore tstore pid now = .error "Project not found") ∧
    (∀ p, findProjectById pstore pid = some p → p.status = .archived →
      archiveProjectWithTasks pstore tstore pid now = .error "Project is already archived") ∧
    (∀ p, findProjectById pstore pid = some p → p.status = .active →
      archiveProjectWithTasks pstore tstore pid now =
        .ok (saveProject pstore (Project.archive p now),
          tstore ++ (findActiveByProjectId tstore pid).map (fun u => WorkTask.archive u now)) ∧
      findProjectById (saveProject pstore (Project.archive p now)) pid =
        some (Project.archive p now) ∧
      (Project.archive p now).status = .archived ∧
      (∀ tid t', findTaskById (tstore ++ (findActiveByProjectId tstore pid).map
            (fun u => WorkTask.archive u now)) tid = some t' →
          t'.projectId = pid → t'.status = .archived) ∧
      (∀ now', archiveProjectWithTasks (saveProject pstore (Project.archive p now))
          (tstore ++ (findActiveByProjectId tstore pid).map (fun u => WorkTask.archive u now))
          pid now' = .error "Project is already archived")) := by
  refine ⟨?_, ?_, ?_⟩
  · intro h
    simp only [archiveProjectWithTasks, h]
  · intro p hp hstat
    simp only [archiveProjectWithTasks, hp]
    rw [if_pos (by simp [hstat])]
  · intro p hp hstat
    have hcond : ¬((p.status == Status.archived) = true) := by rw [hstat]; simp
    have hpid : p.id = pid := (findProjectById_some hp).2
    have hok : archiveProjectWithTasks pstore tstore pid now =
        .ok (saveProject pstore (Project.archive p now),
          tstore ++ (findActiveByProjectId tstore pid).map (fun u => WorkTask.archive u now)) := by
      simp only [archiveProjectWithTasks, hp]
      rw [if_neg hcond]
      rw [foldl_saveTask now]
    have hfindAfter : findProjectById (saveProject pstore (Project.archive p now)) pid =
        some (Project.archive p now) := by
      unfold findProjectById saveProject projVersions
      rw [List.filter_append]
      have hsingle : List.filter (fun q => q.id == pid) [Project.archive p now] =
          [Project.archive p now] := by
        simp [Project.archive, hpid]
      rw [hsingle]
      apply maxByKeyLast_append_singleton
      intro u hu
      show u.effectiveAt ≤ (Project.archive p now).effectiveAt
      have harch : (Project.archive p now).effectiveAt = now := rfl
      rw [harch]
      exact hclockP u (List.mem_of_mem_filter hu)
    have htasks : ∀ tid t', findTaskById (tstore ++ (findActiveByProjectId tstore pid).map
          (fun u => WorkTask.archive u now)) tid = some t' →
        t'.projectId = pid → t'.status = .archived := by
      intro tid t' hfind hproj
      have hsplit : taskVersions (tstore ++ (findActiveByProjectId tstore pid).map
            (fun u => WorkTask.archive u now)) tid =
          taskVersions tstore tid ++
            ((findActiveByProjectId tstore pid).filter (fun u => u.id == tid)).map
              (fun u => WorkTask.archive u now) := by
        rw [taskVersions_append]
        congr 1
        exact (map_filter_comm (fun u => WorkTask.archive u now)
          (fun t => t.id == tid) (findActiveByProjectId tstore pid)).symm
      cases hAf : (findActiveByProjectId tstore pid).filter (fun u => u.id == tid) with
      | nil =>
        rw [hAf] at hsplit
        simp only [List.map_nil, List.append_nil] at hsplit
        have hfind2 : findTaskById tstore tid = some t' := by
          unfold findTaskById at hfind ⊢
          rw [hsplit] at hfind
          exact hfind
        by_contra hstat2
        have hact : t'.status = .active := by
          cases hq : t'.status
          · rfl
          · exact absurd hq hstat2
        have hid : t'.id = tid := (findTaskById_some hfind2).2
        have hmem : t' ∈ tstore := (findTaskById_some hfind2).1
        have hids : t'.id ∈ taskIdsOf tstore := by
          unfold taskIdsOf
          rw [mem_uniqueKeys]
          exact List.mem_map_of_mem _ hmem
        have hA : t' ∈ findActiveByProjectId tstore pid :=
          mem_findActiveByProjectId.2 ⟨by rw [hid]; exact hfind2, hproj, hact, hids⟩
        have hcontra : t' ∈ (findActiveByProjectId tstore pid).filter
            (fun u => u.id == tid) :=
          List.mem_filter.2 ⟨hA, by rw [hid]; exact beq_self_eq_true tid⟩
        rw [hAf] at hcontra
        cases hcontra
      | cons a rest =>
        obtain ⟨m, hmMem, hmEq⟩ := maxByKeyLast_append_const (fun t => t.effectiveAt)
          (taskVersions tstore tid) ((a :: rest).map (fun u => WorkTask.archive u now)) now
          (by
            intro v hv
            rw [List.mem_map] at hv
            obtain ⟨u, _, hu⟩ := hv
            rw [← hu]
            rfl)
          (by
            intro u hu
            exact hclockT u (List.mem_of_mem_filter hu))
          (by simp)
        have hres : findTaskById (tstore ++ (findActiveByProjectId tstore pid).map
            (fun u => WorkTask.archive u now)) tid = some m := by
          unfold findTaskById
          rw [hsplit, hAf]
          exact hmEq
        rw [hres] at hfind
        have hmt : m = t' := by injection hfind
        subst hmt
        rw [List.mem_map] at hmMem
        obtain ⟨u, _, hu⟩ := hmMem
        rw [← hu]
        rfl
    have hsecond : ∀ now', archiveProjectWithTasks
        (saveProject pstore (Project.archive p now))
        (tstore ++ (findActiveByProjectId tstore pid).map (fun u => WorkTask.archive u now))
        pid now' = .error "Project is already archived" := by
      intro now'
      simp only [archiveProjectWithTasks, hfindAfter]
      rw [if_pos (show ((Project.archive p now).status == Status.archived) = true from rfl)]
    exact ⟨hok, hfindAfter, rfl, htasks, hsecond⟩

/-- Concrete stores for exercising the cascading archive: one Active
project owning one Active and one Archived task, plus a task of another
project. -/
def demoPStore : List Project :=
  [{ id := 1, name := ['p'], status := Status.active, effectiveAt := 0 }]

def demoTStore : List WorkTask :=
  [{ id := 1, projectId := 1, name := ['t'], status := Status.active, effectiveAt := 0 },
   { id := 2, projectId := 1, name := ['u'], status := Status.archived, effectiveAt := 0 },
   { id := 3, projectId := 2, name := ['v'], status := Status.active, effectiveAt := 0 }]

theorem archiveProjectWithTasks_spec_witness :
    archiveProjectWithTasks demoPStore demoTStore 1 10 =
      .ok (saveProject demoPStore
          (Project.archive { id := 1, name := ['p'], status := Status.active, effectiveAt := 0 } 10),
        demoTStore ++ (findActiveByProjectId demoTStore 1).map
          (fun u => WorkTask.archive u 10)) ∧
    (∀ now', archiveProjectWithTasks
        (saveProject demoPStore
          (Project.archive { id := 1, name := ['p'], status := Status.active, effectiveAt := 0 } 10))
        (demoTStore ++ (findActiveByProjectId demoTStore 1).map
          (fun u => WorkTask.archive u 10)) 1 now' =
      .error "Project is already archived") := by
  have h := (archiveProjectWithTasks_spec demoPStore demoTStore 1 10
      (by decide) (by decide)).2.2
    { id := 1, name := ['p'], status := Status.active, effectiveAt := 0 } (by decide) rfl
  exact ⟨h.1, h.2.2.2.2⟩

theorem derivation_tiebreak_minId_witness :
    ({ taskId := 1, startEventId := 1, startTime := 0, endTime := some 7,
       durationInSeconds := some 7 } : TimeEntry) ∈
      buildTimeEntries (replaySaves [TimeEntryEvent.startAt 1 0,
        TimeEntryEvent.stopAt 1 1 7, TimeEntryEvent.stopAt 1 1 3]) ∧
    ({ taskId := 1, startEventId := 1, startTime := 0, endTime := some 7,
       durationInSeconds := some 7 } : TimeEntry).endTime =
      (minIdStop (replaySaves [TimeEntryEvent.startAt 1 0,
        TimeEntryEvent.stopAt 1 1 7, TimeEntryEvent.stopAt 1 1 3]).events 1).map
          (fun e => e.atTime) := by
  refine ⟨by decide, ?_⟩
  exact derivation_tiebreak_minId
    [TimeEntryEvent.startAt 1 0, TimeEntryEvent.stopAt 1 1 7, TimeEntryEvent.stopAt 1 1 3]
    { taskId := 1, startEventId := 1, startTime := 0, endTime := some 7,
      durationInSeconds := some 7 } (by decide)
